import Mathlib

/-!
Verification of the JSON repair / normalization / validation core of the
SA-Lotto-Scraper repository.  The definitions below are a shallow embedding of
the TypeScript functions `fixTruncatedJson`, `cleanJsonString` and
`generateLotteryData`; strings are modelled as `List Char`.  Platform
functions used by the source (`JSON.parse`, `Date`, `Array.prototype.sort`,
`String.prototype.trim`, regex replacement) are modelled by executable Lean
functions whose doc comments state the modelled semantics.
-/

set_option maxHeartbeats 1000000

/-- The character `\x7b` (left curly brace), used by several scanners. -/
def lbrace : Char := Char.ofNat 123

/-- The character `\x7d` (right curly brace). -/
def rbrace : Char := Char.ofNat 125

/-- The backtick character, used by the markdown fence marker. -/
def backtick : Char := Char.ofNat 96

/-- The three-backtick markdown fence marker tested by `cleanJsonString`. -/
def fenceMarker : List Char := [backtick, backtick, backtick]

/-- Whitespace as matched by JavaScript `\s` and `String.prototype.trim`
(the common code points). -/
def jsWhitespace (c : Char) : Bool :=
  c == ' ' || c == '\t' || c == '\n' || c == '\r' || c == Char.ofNat 11 ||
  c == Char.ofNat 12 || c == Char.ofNat 160 || c == Char.ofNat 0x2028 ||
  c == Char.ofNat 0x2029 || c == Char.ofNat 0xFEFF

/-- State of the single-pass scan in `fixTruncatedJson`:
the stack of expected closers (top first), the in-string flag and the
escaped-previous-character flag. -/
structure ScanState where
  stack : List Char
  isInsideString : Bool
  escaped : Bool
deriving Repr, DecidableEq

/-- The closer pushed by `fixTruncatedJson` for an opener:
the source's ternary `char === '{' ? '}' : ']'`. -/
def closerOf (c : Char) : Char := if c == lbrace then rbrace else ']'

/-- One loop iteration of `fixTruncatedJson` (source lines 19-35):
toggle the in-string flag on an unescaped quote, then update the escape flag,
then (outside strings) push the matching closer for `{`/`[` or pop the stack
top when it equals a closing `}`/`]`. -/
def scanStep (st : ScanState) (c : Char) : ScanState :=
  let inStr := if c == '"' && !st.escaped then !st.isInsideString else st.isInsideString
  let esc := c == '\\' && !st.escaped
  let stack :=
    if inStr then st.stack
    else if c == lbrace || c == '[' then closerOf c :: st.stack
    else if c == rbrace || c == ']' then
      match st.stack with
      | t :: rest => if t == c then rest else st.stack
      | [] => st.stack
    else st.stack
  ⟨stack, inStr, esc⟩

/-- The full scan of `fixTruncatedJson` over the input. -/
def scanJson (l : List Char) : ScanState :=
  l.foldl scanStep ⟨[], false, false⟩

/-- The function `fixTruncatedJson` (source lines 14-50): scan the input, then append a
quote if the scan ended inside a string, then append the remaining stack of
closers popped top-first. -/
def fixTruncatedJson (l : List Char) : List Char :=
  l ++ (if (scanJson l).isInsideString then ['"'] else []) ++ (scanJson l).stack

/-- State of the specification-side scan that records the unmatched
`{`/`[` openers themselves (most recently opened first). -/
structure OpenScanState where
  openersRev : List Char
  insideString : Bool
  escaped : Bool
deriving Repr, DecidableEq

/-- Specification-side scan step: same string/escape tracking as the code,
but the stack holds the unmatched opener characters (most recent first);
a closer pops the most recent opener exactly when it matches it. -/
def openScanStep (st : OpenScanState) (c : Char) : OpenScanState :=
  let inStr := if c == '"' && !st.escaped then !st.insideString else st.insideString
  let esc := c == '\\' && !st.escaped
  let ops :=
    if inStr then st.openersRev
    else if c == lbrace || c == '[' then c :: st.openersRev
    else if c == rbrace || c == ']' then
      match st.openersRev with
      | o :: rest => if closerOf o == c then rest else st.openersRev
      | [] => st.openersRev
    else st.openersRev
  ⟨ops, inStr, esc⟩

/-- The `{`/`[` openers of the input that are unmatched when scanned outside
string literals, listed in order of appearance (earliest first). -/
def specUnmatchedOpeners (l : List Char) : List Char :=
  ((l.foldl openScanStep ⟨[], false, false⟩).openersRev).reverse

/-- One step of the strict well-delimitedness scan: behaves like `scanStep`,
but fails (returns `none`) on a closing `}`/`]` outside a string that does not
match the innermost open container. -/
def strictStep (st : ScanState) (c : Char) : Option ScanState :=
  if !(scanStep st c).isInsideString && (c == rbrace || c == ']') then
    match st.stack with
    | [] => none
    | t :: _ => if t == c then some (scanStep st c) else none
  else some (scanStep st c)

/-- The strict scan over the whole input. -/
def strictScan (l : List Char) : Option ScanState :=
  l.foldl (fun a c => a.bind (fun st => strictStep st c)) (some ⟨[], false, false⟩)

/-- Modelled from the spec: a text is well delimited when it has balanced,
correctly nested brackets outside string literals and all string literals
terminated — the syntactic part of "syntactically valid JSON text" used by
the idempotence property. -/
def specWellDelimited (l : List Char) : Bool :=
  match strictScan l with
  | some st => st.stack.isEmpty && !st.isInsideString
  | none => false

/-- Parsed JSON values, as produced by the platform `JSON.parse`.
Numbers are kept exactly as sign, mantissa digits, decimal scale and
exponent, so that distinct numeric magnitudes stay distinguishable. -/
inductive Json where
  | null
  | bool (b : Bool)
  | num (neg : Bool) (mant : Nat) (scale : Nat) (ex : Int)
  | str (s : List Char)
  | arr (elems : List Json)
  | obj (fields : List (List Char × Json))
deriving Repr

/-- JSON insignificant whitespace (the four code points of RFC 8259). -/
def jsonWs (c : Char) : Bool :=
  c == ' ' || c == '\t' || c == '\n' || c == '\r'

/-- Skip insignificant JSON whitespace. -/
def skipWs (l : List Char) : List Char := l.dropWhile jsonWs

/-- The table of single-character JSON escapes and their decoded
characters. -/
def escTable : List (Char × Char) :=
  [('"', '"'), ('\\', '\\'), ('/', '/'), ('b', Char.ofNat 8),
   ('f', Char.ofNat 12), ('n', '\n'), ('r', '\r'), ('t', '\t')]

/-- Decode a single-character JSON escape. -/
def decodeEsc (c : Char) : Option Char :=
  (escTable.find? (fun pr => pr.1 == c)).map (fun pr => pr.2)

/-- Value of a hexadecimal digit. -/
def hexVal (c : Char) : Option Nat :=
  if 48 ≤ c.toNat && c.toNat ≤ 57 then some (c.toNat - 48)
  else if 97 ≤ c.toNat && c.toNat ≤ 102 then some (c.toNat - 87)
  else if 65 ≤ c.toNat && c.toNat ≤ 70 then some (c.toNat - 55)
  else none

/-- Numeric value of a digit list, most significant first. -/
def digitsToNat (ds : List Char) : Nat :=
  ds.foldl (fun a c => a * 10 + (c.toNat - 48)) 0

/-- Parse the body of a JSON string literal (the opening quote already
consumed); returns the decoded characters and the rest of the input after the
closing quote. -/
def parseJString : List Char → Option (List Char × List Char)
  | [] => none
  | '"' :: rest => some ([], rest)
  | '\\' :: 'u' :: h1 :: h2 :: h3 :: h4 :: rest =>
    match hexVal h1, hexVal h2, hexVal h3, hexVal h4 with
    | some a, some b, some c, some d =>
      (parseJString rest).map
        (fun pr => (Char.ofNat (((a * 16 + b) * 16 + c) * 16 + d) :: pr.1, pr.2))
    | _, _, _, _ => none
  | '\\' :: e :: rest =>
    match decodeEsc e with
    | some ch => (parseJString rest).map (fun pr => (ch :: pr.1, pr.2))
    | none => none
  | c :: rest =>
    if c.toNat < 32 then none
    else (parseJString rest).map (fun pr => (c :: pr.1, pr.2))

/-- Parse a JSON number (RFC 8259 grammar: optional minus, integer part with
no leading zero, optional fraction, optional exponent). -/
def parseNumber (l : List Char) : Option (Json × List Char) :=
  let (neg, l1) : Bool × List Char :=
    match l with
    | '-' :: r => (true, r)
    | _ => (false, l)
  let ids := l1.takeWhile Char.isDigit
  let r1 := l1.dropWhile Char.isDigit
  if ids.isEmpty then none
  else if 1 < ids.length && ids.head? == some '0' then none
  else
    let (fds, r2) : List Char × List Char :=
      match r1 with
      | '.' :: rr => (rr.takeWhile Char.isDigit, rr.dropWhile Char.isDigit)
      | _ => ([], r1)
    if (match r1 with | '.' :: _ => fds.isEmpty | _ => false) then none
    else
      match r2 with
      | e :: rr =>
        if e == 'e' || e == 'E' then
          let (esgn, rr2) : Int × List Char :=
            match rr with
            | '+' :: z => (1, z)
            | '-' :: z => (-1, z)
            | _ => (1, rr)
          let eds := rr2.takeWhile Char.isDigit
          let r3 := rr2.dropWhile Char.isDigit
          if eds.isEmpty then none
          else some (Json.num neg (digitsToNat (ids ++ fds)) fds.length
                      (esgn * (digitsToNat eds : Int)), r3)
        else some (Json.num neg (digitsToNat (ids ++ fds)) fds.length 0, e :: rr)
      | [] => some (Json.num neg (digitsToNat (ids ++ fds)) fds.length 0, [])

mutual

/-- Recursive-descent JSON value parser (a model of the platform
`JSON.parse`), with a fuel argument bounding recursion depth. -/
def parseValue : Nat → List Char → Option (Json × List Char)
  | 0, _ => none
  | fuel + 1, l =>
    match skipWs l with
    | [] => none
    | c :: rest =>
      if c == lbrace then
        match skipWs rest with
        | c2 :: rest2 =>
          if c2 == rbrace then some (Json.obj [], rest2)
          else (parseMembers fuel (c2 :: rest2)).map (fun pr => (Json.obj pr.1, pr.2))
        | [] => none
      else if c == '[' then
        match skipWs rest with
        | c2 :: rest2 =>
          if c2 == ']' then some (Json.arr [], rest2)
          else (parseElems fuel (c2 :: rest2)).map (fun pr => (Json.arr pr.1, pr.2))
        | [] => none
      else if c == '"' then
        (parseJString rest).map (fun pr => (Json.str pr.1, pr.2))
      else if c == 't' then
        match rest with
        | 'r' :: 'u' :: 'e' :: r => some (Json.bool true, r)
        | _ => none
      else if c == 'f' then
        match rest with
        | 'a' :: 'l' :: 's' :: 'e' :: r => some (Json.bool false, r)
        | _ => none
      else if c == 'n' then
        match rest with
        | 'u' :: 'l' :: 'l' :: r => some (Json.null, r)
        | _ => none
      else if c == '-' || c.isDigit then parseNumber (c :: rest)
      else none

/-- Parse the elements of a non-empty JSON array, up to and including the
closing bracket. -/
def parseElems : Nat → List Char → Option (List Json × List Char)
  | 0, _ => none
  | fuel + 1, l =>
    match parseValue fuel l with
    | none => none
    | some (v, r) =>
      match skipWs r with
      | c :: r2 =>
        if c == ',' then
          (parseElems fuel r2).map (fun pr => (v :: pr.1, pr.2))
        else if c == ']' then some ([v], r2)
        else none
      | [] => none

/-- Parse the members of a non-empty JSON object (first non-blank character
of the first key expected at the head), up to and including the closing
brace. -/
def parseMembers : Nat → List Char → Option (List (List Char × Json) × List Char)
  | 0, _ => none
  | fuel + 1, l =>
    match l with
    | c :: rest =>
      if c == '"' then
        match parseJString rest with
        | none => none
        | some (k, r1) =>
          match skipWs r1 with
          | ':' :: r2 =>
            match parseValue fuel r2 with
            | none => none
            | some (v, r3) =>
              match skipWs r3 with
              | c2 :: r4 =>
                if c2 == ',' then
                  match skipWs r4 with
                  | c3 :: r5 =>
                    (parseMembers fuel (c3 :: r5)).map
                      (fun pr => ((k, v) :: pr.1, pr.2))
                  | [] => none
                else if c2 == rbrace then some ([(k, v)], r4)
                else none
              | [] => none
          | _ => none
      else none
    | [] => none

end

/-- Model of `JSON.parse`: parse one JSON value and require only whitespace
after it.  The fuel `2 * length + 8` exceeds the number of recursion steps
any input of this length can demand. -/
def parseJsonList (l : List Char) : Option Json :=
  match parseValue (2 * l.length + 8) l with
  | some (v, r) => if (skipWs r).isEmpty then some v else none
  | none => none

/-- Model of `String.prototype.trim`: remove leading and trailing JS
whitespace. -/
def jsTrim (l : List Char) : List Char :=
  ((l.dropWhile jsWhitespace).reverse.dropWhile jsWhitespace).reverse

/-- The `startsWith('```')` test of `cleanJsonString` (source line 54). -/
def startsWithFence (l : List Char) : Bool :=
  match l with
  | a :: b :: c :: _ => a == backtick && b == backtick && c == backtick
  | _ => false

/-- Remove one optional leading newline (the `\n?` tail of the opening-fence
regex). -/
def stripNl (r : List Char) : List Char :=
  match r with
  | c :: r2 => if c == '\n' then r2 else r
  | [] => r

/-- After the three opening backticks: remove an optional `json` language tag
and an optional single newline (the `(?:json)?\n?` part of the regex
`^` + three backticks + `(?:json)?\n?`). -/
def stripAfterFence (r : List Char) : List Char :=
  match r with
  | c1 :: c2 :: c3 :: c4 :: r2 =>
    if c1 == 'j' && c2 == 's' && c3 == 'o' && c4 == 'n' then stripNl r2 else stripNl r
  | _ => stripNl r

/-- Model of `replace(^fence(?:json)?\n?, '')`: anchored, non-global, so it
removes at most one opening fence. -/
def stripLeadFence (l : List Char) : List Char :=
  match l with
  | a :: b :: c :: rest =>
    if a == backtick && b == backtick && c == backtick then stripAfterFence rest
    else l
  | _ => l

/-- Model of `replace(\n?fence$, '')`: anchored at the end, non-global, so it
removes at most one closing fence, preferring to take the preceding
newline. -/
def stripTrailFence (l : List Char) : List Char :=
  match l.reverse with
  | a :: b :: c :: d :: rest =>
    if a == backtick && b == backtick && c == backtick then
      if d == '\n' then rest.reverse else (d :: rest).reverse
    else l
  | [a, b, c] =>
    if a == backtick && b == backtick && c == backtick then [] else l
  | _ => l

/-- Fence removal of `cleanJsonString` (source lines 54-56): both replaces
run only when the trimmed text starts with a fence. -/
def stripFences (l : List Char) : List Char :=
  if startsWithFence l then stripTrailFence (stripLeadFence l) else l

/-- Model of the global regex replace of comma + whitespace + closing
bracket by the bracket (source line 58), as a single left-to-right pass.
The first argument is `none` when no candidate match is open, and
`some buf` when a comma followed by the whitespace run `buf` (reversed) has
been read: a closing bracket then completes the match (the comma and the
whitespace are dropped and the bracket kept), further whitespace extends the
run, and anything else abandons the candidate, re-emitting the comma and the
run — a following comma immediately opening a new candidate, exactly as the
regex engine resumes scanning after a failed match position.  Matches cannot
overlap, and replaced output is not rescanned, exactly as for a global
regex. -/
def rtcAux : Option (List Char) → List Char → List Char
  | none, [] => []
  | some buf, [] => ',' :: buf.reverse
  | none, c :: rest =>
    if c == ',' then rtcAux (some []) rest
    else c :: rtcAux none rest
  | some buf, c :: rest =>
    if c == rbrace || c == ']' then c :: rtcAux none rest
    else if jsWhitespace c then rtcAux (some (c :: buf)) rest
    else if c == ',' then (',' :: buf.reverse) ++ rtcAux (some []) rest
    else (',' :: buf.reverse) ++ (c :: rtcAux none rest)

/-- See the doc comment above `rtcAux`: the whole replacement pass starts
outside a candidate match. -/
def removeTrailingCommas (l : List Char) : List Char := rtcAux none l

/-- The function `cleanJsonString` (source lines 52-67): trim, strip fences, remove
trailing commas, then return the cleaned text if it parses and the
truncation repair of it otherwise. -/
def cleanJsonString (l : List Char) : List Char :=
  let cleaned := removeTrailingCommas (stripFences (jsTrim l))
  match parseJsonList cleaned with
  | some _ => cleaned
  | none => fixTruncatedJson cleaned

/-- JavaScript property access `d[k]` on a parsed value: `undefined`
(`none`) unless `d` is an object with the key; the last binding wins, as for
`JSON.parse` duplicate keys. -/
def getField (d : Json) (k : List Char) : Option Json :=
  match d with
  | Json.obj fs => fs.foldl (fun acc kv => if kv.1 == k then some kv.2 else acc) none
  | _ => none

/-- JavaScript truthiness of a parsed JSON value. -/
def jsTruthy : Json → Bool
  | Json.null => false
  | Json.bool b => b
  | Json.num _ m _ _ => m != 0
  | Json.str s => !s.isEmpty
  | Json.arr _ => true
  | Json.obj _ => true

/-- Truthiness of a possibly-`undefined` value. -/
def truthyOpt : Option Json → Bool
  | some v => jsTruthy v
  | none => false

/-- The `Array.isArray` test on a possibly-`undefined` value. -/
def isArrOpt : Option Json → Bool
  | some (Json.arr _) => true
  | _ => false

/-- The object key `game`. -/
def gameKey : List Char := String.toList "game"

/-- The object key `date`. -/
def dateKeyName : List Char := String.toList "date"

/-- The object key `numbers`. -/
def numbersKey : List Char := String.toList "numbers"

/-- The object key `draws`. -/
def drawsKey : List Char := String.toList "draws"

/-- The filter predicate of source line 129:
`d && d.game && d.date && Array.isArray(d.numbers)`. -/
def isValidDraw (d : Json) : Bool :=
  jsTruthy d && truthyOpt (getField d gameKey) && truthyOpt (getField d dateKeyName)
    && isArrOpt (getField d numbersKey)

/-- Parse exactly `YYYY-MM-DD` into year, month, day. -/
def parseYMD (s : List Char) : Option (Nat × Nat × Nat) :=
  match s with
  | [y1, y2, y3, y4, h1, m1, m2, h2, d1, d2] =>
    if h1 == '-' && h2 == '-' && y1.isDigit && y2.isDigit && y3.isDigit && y4.isDigit
        && m1.isDigit && m2.isDigit && d1.isDigit && d2.isDigit then
      some (digitsToNat [y1, y2, y3, y4], digitsToNat [m1, m2], digitsToNat [d1, d2])
    else none
  | _ => none

/-- Gregorian leap year. -/
def isLeap (y : Nat) : Bool :=
  (y % 4 == 0 && y % 100 != 0) || y % 400 == 0

/-- Days in a month of the Gregorian calendar. -/
def daysInMonth (y m : Nat) : Nat :=
  if m == 2 then (if isLeap y then 29 else 28)
  else if m == 4 || m == 6 || m == 9 || m == 11 then 30
  else 31

/-- Days from 0400-03-01-era origin for the year shifted by +400
(Hinnant's civil-from-days companion, kept in `Nat`). -/
def daysFromCivilShifted (y m d : Nat) : Nat :=
  let y2 := if m ≤ 2 then y - 1 else y
  let era := y2 / 400
  let yoe := y2 - era * 400
  let mp := (m + 9) % 12
  let doy := (153 * mp + 2) / 5 + d - 1
  let doe := yoe * 365 + yoe / 4 - yoe / 100 + doy
  era * 146097 + doe

/-- Model of `new Date(s).getTime()` for ISO `YYYY-MM-DD` strings:
milliseconds since the Unix epoch, `none` standing for the `NaN` of an
unparsable date.  Other string shapes and non-string values are treated as
unparsable. -/
def dateGetTime (s : List Char) : Option Int :=
  match parseYMD s with
  | some (y, m, d) =>
    if 1 ≤ m && m ≤ 12 && 1 ≤ d && d ≤ daysInMonth y m then
      some (((daysFromCivilShifted (y + 400) m d : Int) - 865565) * 86400000)
    else none
  | none => none

/-- The timestamp `new Date(rec.date).getTime()` of a draw record. -/
def dateKey (d : Json) : Option Int :=
  match getField d dateKeyName with
  | some (Json.str s) => dateGetTime s
  | _ => none

/-- The comparator of source line 130,
`(a, b) => new Date(b.date).getTime() - new Date(a.date).getTime()`,
after the ECMAScript `SortCompare` normalization that treats a `NaN`
comparator result as `+0`. -/
def sortCompare (a b : Json) : Int :=
  match dateKey b, dateKey a with
  | some x, some y => x - y
  | _, _ => 0

/-- Stable insertion used to model `Array.prototype.sort` (stable per
ECMAScript 2019+): an element is placed before the first element of the
already-sorted tail that it does not compare after. -/
def insertByDate (x : Json) : List Json → List Json
  | [] => [x]
  | y :: ys => if sortCompare x y ≤ 0 then x :: y :: ys else y :: insertByDate x ys

/-- Model of `validDraws.sort(comparator)`: a stable sort by the
comparator. -/
def sortDraws (l : List Json) : List Json := l.foldr insertByDate []

/-- Outcome of the upstream generative call: either the call failed with an
error message, or it completed with an optional text payload and grounding
sources. -/
inductive Upstream where
  | failure (msg : List Char)
  | success (text : Option (List Char)) (sources : List (List Char × List Char))
deriving Repr

/-- The `ScrapedResult` shape returned by `generateLotteryData`. -/
structure ScrapedResult where
  draws : List Json
  sources : List (List Char × List Char)
  errorDetail : Option (List Char)
deriving Repr

/-- Tests whether `pat` is a leading subsequence of contiguous characters of the second
argument. -/
def listPrefixB : List Char → List Char → Bool
  | [], _ => true
  | _ :: _, [] => false
  | a :: as, b :: bs => a == b && listPrefixB as bs

/-- Model of `String.prototype.includes`: `pat` occurs contiguously somewhere
in `l`. -/
def containsSeq (pat l : List Char) : Bool :=
  match l with
  | [] => pat.isEmpty
  | _ :: rest => listPrefixB pat l || containsSeq pat rest

/-- Error message of the missing-API-key branch. -/
def apiKeyMissingMsg : List Char := String.toList "API Key is missing."

/-- Error message of the rate-limited upstream branch. -/
def rateLimitMsg : List Char := String.toList "Too many requests. Slow down."

/-- Error message of the generic upstream-failure branch. -/
def connectionFailedMsg : List Char := String.toList "Connection failed."

/-- Error message of the unrecoverable-parse branch. -/
def parseFailMsg : List Char :=
  String.toList "Data stream was interrupted. Try a smaller date range."

/-- Source line 122, `response.text || default`: an absent or empty payload
is replaced by the literal `\x7b"draws": []\x7d`. -/
def rawTextOf (t : Option (List Char)) : List Char :=
  match t with
  | some s => if s.isEmpty then String.toList "\x7b\"draws\": []\x7d" else s
  | none => String.toList "\x7b\"draws\": []\x7d"

/-- The function `generateLotteryData` (source lines 69-150), with the upstream call and
API-key presence made explicit parameters.  A parse that yields JSON `null`
takes the error branch because `data.draws` on `null` throws a `TypeError`
that the surrounding `catch` turns into the parse-failure message. -/
def generateLotteryData (hasKey : Bool) (u : Upstream) : ScrapedResult :=
  if !hasKey then ⟨[], [], some apiKeyMissingMsg⟩
  else
    match u with
    | Upstream.failure msg =>
      ⟨[], [],
        some (if containsSeq (String.toList "429") msg then rateLimitMsg
              else connectionFailedMsg)⟩
    | Upstream.success t srcs =>
      match parseJsonList (cleanJsonString (rawTextOf t)) with
      | none => ⟨[], srcs, some parseFailMsg⟩
      | some Json.null => ⟨[], srcs, some parseFailMsg⟩
      | some d =>
        match getField d drawsKey with
        | some (Json.arr ds) => ⟨sortDraws (ds.filter isValidDraw), srcs, none⟩
        | _ => ⟨[], srcs, none⟩

/-- A draw record with the given game, date and numbers fields. -/
def mkDraw (game date : List Char) (nums : List Json) : Json :=
  Json.obj [(gameKey, Json.str game), (dateKeyName, Json.str date),
            (numbersKey, Json.arr nums)]

/-- An integer JSON number. -/
def jint (n : Nat) : Json := Json.num false n 0 0

/-- First record of the validator-filtering example. -/
def sampleDraw1 : Json :=
  mkDraw (String.toList "Lotto") (String.toList "2026-02-01") [jint 1, jint 2, jint 3]

/-- Second record of the validator-filtering example (empty game). -/
def sampleDraw2 : Json :=
  mkDraw (String.toList "") (String.toList "2026-02-02") []

/-- Third record of the validator-filtering example (no game, no date). -/
def sampleDraw3 : Json := Json.obj [(numbersKey, Json.arr [jint 4])]

/-- A valid record dated 2026-01-01. -/
def drawJan01 : Json := mkDraw (String.toList "Lotto") (String.toList "2026-01-01") []

/-- A valid record dated 2026-02-15. -/
def drawFeb15 : Json := mkDraw (String.toList "Lotto") (String.toList "2026-02-15") []

/-- A valid record dated 2026-01-20. -/
def drawJan20 : Json := mkDraw (String.toList "Lotto") (String.toList "2026-01-20") []

/-- A record whose date field does not parse as a calendar date. -/
def drawBadDate : Json := mkDraw (String.toList "Lotto") (String.toList "not-a-date") []

/-! ### Lemmas relating the code scan to the specification-side scans -/

theorem scanStep_sim (st : ScanState) (os : OpenScanState) (c : Char)
    (h1 : st.stack = os.openersRev.map closerOf)
    (h2 : st.isInsideString = os.insideString)
    (h3 : st.escaped = os.escaped) :
    (scanStep st c).stack = (openScanStep os c).openersRev.map closerOf ∧
    (scanStep st c).isInsideString = (openScanStep os c).insideString ∧
    (scanStep st c).escaped = (openScanStep os c).escaped := by
  simp only [scanStep, openScanStep, h1, h2, h3, and_true, and_self]
  split_ifs
  all_goals try rfl
  all_goals try simp
  all_goals
    cases os.openersRev with
    | nil => simp
    | cons o rest =>
      simp only [List.map_cons]
      by_cases ht : closerOf o = c <;> simp [ht]

theorem scan_sim (l : List Char) :
    ∀ (st : ScanState) (os : OpenScanState),
      st.stack = os.openersRev.map closerOf →
      st.isInsideString = os.insideString →
      st.escaped = os.escaped →
      (l.foldl scanStep st).stack = (l.foldl openScanStep os).openersRev.map closerOf ∧
      (l.foldl scanStep st).isInsideString = (l.foldl openScanStep os).insideString := by
  induction l with
  | nil => intro st os h1 h2 _; exact ⟨h1, h2⟩
  | cons c l ih =>
    intro st os h1 h2 h3
    simp only [List.foldl_cons]
    obtain ⟨g1, g2, g3⟩ := scanStep_sim st os c h1 h2 h3
    exact ih _ _ g1 g2 g3

/-- Claim C1: For every input, `fixTruncatedJson` appends (after the optional
string-closing quote) exactly one closing terminator per unmatched `\x7b`/`[`
opener — same count — and these closers, read left to right, are the closers
of the unmatched openers in reverse (last-opened-first-closed) order of their
appearance in the input. -/
theorem fixTruncatedJson_closes_unmatched (l : List Char) :
    fixTruncatedJson l =
      l ++ (if (scanJson l).isInsideString then ['"'] else [])
        ++ ((specUnmatchedOpeners l).reverse.map closerOf) ∧
    ((specUnmatchedOpeners l).reverse.map closerOf).length
      = (specUnmatchedOpeners l).length := by
  have h := scan_sim l ⟨[], false, false⟩ ⟨[], false, false⟩ rfl rfl rfl
  constructor
  · simp only [fixTruncatedJson, scanJson, specUnmatchedOpeners, List.reverse_reverse]
    rw [h.1]
  · simp

/-- Claim C3: The escape flag after a character is true iff the character is a
backslash and the flag was false before it; hence in `"a\\"` (escaped
backslash then quote) the final quote toggles the in-string state back to
false, while in `"a\"` (single unescaped backslash then quote) the quote does
not toggle and the scan stays inside the string. -/
theorem scan_escape_tracking :
    (∀ (st : ScanState) (c : Char),
        (scanStep st c).escaped = (c == '\\' && !st.escaped)) ∧
    (scanJson (String.toList "\"a\\\\\"")).isInsideString = false ∧
    (scanJson (String.toList "\"a\\\"")).isInsideString = true :=
  ⟨fun _ _ => rfl, by decide, by decide⟩

theorem strictStep_some {st st2 : ScanState} {c : Char}
    (h : strictStep st c = some st2) : scanStep st c = st2 := by
  unfold strictStep at h
  split at h
  · split at h
    · cases h
    · split at h
      · exact Option.some.inj h
      · cases h
  · exact Option.some.inj h

theorem strictScan_none (l : List Char) :
    l.foldl (fun a c => a.bind (fun st => strictStep st c)) none = none := by
  induction l with
  | nil => rfl
  | cons c l ih => simpa using ih

theorem strictScan_sim (l : List Char) :
    ∀ (st st' : ScanState),
      l.foldl (fun a c => a.bind (fun s => strictStep s c)) (some st) = some st' →
      l.foldl scanStep st = st' := by
  induction l with
  | nil => intro st st' h; exact Option.some.inj h
  | cons c l ih =>
    intro st st' h
    simp only [List.foldl_cons] at h ⊢
    cases hs : strictStep st c with
    | none =>
      have hn : List.foldl (fun a c => a.bind (fun s => strictStep s c)) none l
          = some st' := by simpa [hs] using h
      rw [strictScan_none] at hn
      cases hn
    | some st2 =>
      have h2 : List.foldl (fun a c => a.bind (fun s => strictStep s c)) (some st2) l
          = some st' := by simpa [hs] using h
      rw [strictStep_some hs]
      exact ih st2 st' h2

/-- Claim C2: On a well-delimited text (balanced, correctly nested brackets
outside string literals and all string literals terminated — the syntactic
shape of any valid JSON document), the repair function returns its input
unchanged, so parsing the repaired string gives the same result as parsing
the input directly. -/
theorem fixTruncatedJson_id_of_wellDelimited (l : List Char)
    (h : specWellDelimited l = true) :
    fixTruncatedJson l = l ∧
    parseJsonList (fixTruncatedJson l) = parseJsonList l := by
  have hfix : fixTruncatedJson l = l := by
    cases hs : strictScan l with
    | none =>
      rw [specWellDelimited, hs] at h
      cases h
    | some st =>
      have h2 : (st.stack.isEmpty && !st.isInsideString) = true := by
        have := h
        rw [specWellDelimited, hs] at this
        exact this
      have h3 : st.stack = [] := by
        have := (Bool.and_eq_true _ _ |>.mp h2).1
        simpa using this
      have h4 : st.isInsideString = false := by
        have := (Bool.and_eq_true _ _ |>.mp h2).2
        simpa using this
      have hscan : scanJson l = st := strictScan_sim l _ _ hs
      unfold fixTruncatedJson
      rw [hscan, h3, h4]
      simp
  exact ⟨hfix, by rw [hfix]⟩

/-! ### Validator filtering (C5) -/

theorem truthyOpt_iff (o : Option Json) :
    truthyOpt o = true ↔ ∃ v, o = some v ∧ jsTruthy v = true := by
  cases o <;> simp [truthyOpt]

theorem isArrOpt_iff (o : Option Json) :
    isArrOpt o = true ↔ ∃ a, o = some (Json.arr a) := by
  cases o with
  | none => simp [isArrOpt]
  | some v => cases v <;> simp [isArrOpt]

/-- Claim C5: The validator keeps a parsed element iff it is non-null with a
truthy `game` field, a truthy `date` field, and a `numbers` field that is an
array (possibly empty); on the three-record example of the spec exactly the
first record is kept. -/
theorem validator_keep_iff :
    (∀ d : Json, isValidDraw d = true ↔
      (d ≠ Json.null ∧
       (∃ v, getField d gameKey = some v ∧ jsTruthy v = true) ∧
       (∃ v, getField d dateKeyName = some v ∧ jsTruthy v = true) ∧
       (∃ a, getField d numbersKey = some (Json.arr a)))) ∧
    [sampleDraw1, sampleDraw2, sampleDraw3].filter isValidDraw = [sampleDraw1] := by
  constructor
  · intro d
    cases d with
    | null => simp [isValidDraw, jsTruthy, getField]
    | bool b => simp [isValidDraw, getField, truthyOpt]
    | num n m s e => simp [isValidDraw, getField, truthyOpt]
    | str s => simp [isValidDraw, getField, truthyOpt]
    | arr a => simp [isValidDraw, getField, truthyOpt]
    | obj fs =>
      simp only [isValidDraw, jsTruthy, Bool.and_eq_true, truthyOpt_iff, isArrOpt_iff,
        ne_eq, reduceCtorEq, not_false_eq_true, true_and, Bool.true_and]
      tauto
  · rfl

theorem validator_keep_iff_witness :
    sampleDraw1 ≠ Json.null ∧
    (∃ v, getField sampleDraw1 gameKey = some v ∧ jsTruthy v = true) ∧
    (∃ v, getField sampleDraw1 dateKeyName = some v ∧ jsTruthy v = true) ∧
    (∃ a, getField sampleDraw1 numbersKey = some (Json.arr a)) :=
  (validator_keep_iff.1 sampleDraw1).mp rfl

/-! ### Trailing-comma removal (C7) -/

theorem rtcAux_ws_bracket (b : Char) (rest : List Char)
    (hb : (b == rbrace || b == ']') = true) :
    ∀ (ws buf : List Char), (∀ c ∈ ws, jsWhitespace c = true) →
      rtcAux (some buf) (ws ++ b :: rest) = b :: rtcAux none rest := by
  intro ws
  induction ws with
  | nil => intro buf _; simp [rtcAux, hb]
  | cons w ws ih =>
    intro buf hws
    have hw : jsWhitespace w = true := hws w (by simp)
    have e1 : w ≠ rbrace := by intro h; rw [h] at hw; exact absurd hw (by decide)
    have e2 : w ≠ ']' := by intro h; rw [h] at hw; exact absurd hw (by decide)
    simpa [rtcAux, e1, e2, hw] using ih (w :: buf) (fun c hc => hws c (by simp [hc]))

/-- The concrete corrupted string value: the claim that trailing-comma
removal never touches commas inside string literals fails at
`\x7b"a":"x, \x7d"\x7d`, whose in-string `, \x7d` is rewritten to `\x7d`. -/
theorem removeTrailingCommas_string_cex :
    removeTrailingCommas (String.toList "\x7b\"a\":\"x, \x7d\"\x7d")
        = String.toList "\x7b\"a\":\"x\x7d\"\x7d" ∧
    String.toList "\x7b\"a\":\"x\x7d\"\x7d" ≠ String.toList "\x7b\"a\":\"x, \x7d\"\x7d" :=
  ⟨by decide, by decide⟩

/-- Claim C7, amended: The trailing-comma removal replaces every occurrence of
a comma followed (ignoring whitespace) by `\x7d` or `]` with just the
bracket, wherever the occurrence lies — including inside string literals,
since the regex is not string-aware: a match at the head is always rewritten,
a non-comma head is always copied, and the string value ending in `, \x7d` is
corrupted. -/
theorem removeTrailingCommas_behavior :
    (∀ (ws : List Char) (b : Char) (rest : List Char),
        (∀ c ∈ ws, jsWhitespace c = true) → (b == rbrace || b == ']') = true →
        removeTrailingCommas (',' :: (ws ++ b :: rest)) = b :: removeTrailingCommas rest) ∧
    (∀ (c : Char) (rest : List Char), c ≠ ',' →
        removeTrailingCommas (c :: rest) = c :: removeTrailingCommas rest) ∧
    removeTrailingCommas (String.toList "\x7b\"a\":\"x, \x7d\"\x7d")
      = String.toList "\x7b\"a\":\"x\x7d\"\x7d" := by
  refine ⟨?_, ?_, by decide⟩
  · intro ws b rest hws hb
    show rtcAux none (',' :: (ws ++ b :: rest)) = b :: rtcAux none rest
    simp only [rtcAux]
    rw [if_pos (by simp)]
    exact rtcAux_ws_bracket b rest hb ws [] hws
  · intro c rest hc
    show rtcAux none (c :: rest) = c :: rtcAux none rest
    simp [rtcAux, hc]

theorem removeTrailingCommas_behavior_witness :
    removeTrailingCommas (String.toList ", ]") = [']'] :=
  removeTrailingCommas_behavior.1 [' '] ']' []
    (by intro c hc; simp at hc; rw [hc]; decide) (by decide)

/-! ### Sorting of unparsable dates (C8) -/

/-- The claim that unparsable-date records sort after all parsable-date
records fails: the comparator result is `NaN`, treated as `+0`, so the stable
sort leaves `drawBadDate` in front of the parsable `drawJan01`. -/
theorem sortDraws_unparsable_stays_cex :
    sortDraws [drawBadDate, drawJan01] = [drawBadDate, drawJan01] ∧
    dateKey drawBadDate = none ∧
    (dateKey drawJan01).isSome = true :=
  ⟨rfl, rfl, rfl⟩

/-- Claim C8, amended: A record whose date does not parse compares as equal
to every record (the `NaN` comparator result is normalized to `+0`), so the
stable descending sort keeps unparsable-date records in their original
relative positions instead of placing them after all parsable-date
records. -/
theorem sortCompare_unparsable_zero (a b : Json)
    (h : dateKey a = none ∨ dateKey b = none) : sortCompare a b = 0 := by
  rcases h with h | h
  · cases hb : dateKey b <;> simp [sortCompare, h, hb]
  · cases ha : dateKey a <;> simp [sortCompare, h, ha]

theorem sortCompare_unparsable_zero_witness :
    sortCompare drawBadDate drawJan01 = 0 :=
  sortCompare_unparsable_zero drawBadDate drawJan01 (Or.inl rfl)

/-! ### Descending stable sort (C6) -/

/-- The sort-order relation: `a` is dated no earlier than `b` (timestamps
defaulted to 0, which the sorted-output theorem only uses on records whose
dates parse). -/
def dateGE (a b : Json) : Prop := (dateKey b).getD 0 ≤ (dateKey a).getD 0

theorem dateGE_trans {a b c : Json} (h1 : dateGE a b) (h2 : dateGE b c) :
    dateGE a c := le_trans h2 h1

theorem sortCompare_le_iff {a b : Json}
    (ha : (dateKey a).isSome = true) (hb : (dateKey b).isSome = true) :
    sortCompare a b ≤ 0 ↔ dateGE a b := by
  obtain ⟨x, hx⟩ := Option.isSome_iff_exists.mp ha
  obtain ⟨y, hy⟩ := Option.isSome_iff_exists.mp hb
  simp [sortCompare, dateGE, hx, hy]

theorem mem_insertByDate {z x : Json} {s : List Json} :
    z ∈ insertByDate x s ↔ z = x ∨ z ∈ s := by
  induction s with
  | nil => simp [insertByDate]
  | cons y ys ih =>
    unfold insertByDate
    by_cases h : sortCompare x y ≤ 0
    · simp [h, List.mem_cons]
    · simp [h, List.mem_cons, ih]
      tauto

theorem insertByDate_pairwise {x : Json} {s : List Json}
    (hx : (dateKey x).isSome = true)
    (hs : ∀ y ∈ s, (dateKey y).isSome = true)
    (hp : s.Pairwise dateGE) : (insertByDate x s).Pairwise dateGE := by
  induction s with
  | nil => simp [insertByDate]
  | cons y ys ih =>
    rw [List.pairwise_cons] at hp
    have hy : (dateKey y).isSome = true := hs y (by simp)
    unfold insertByDate
    by_cases h : sortCompare x y ≤ 0
    · rw [if_pos h]
      refine List.Pairwise.cons ?_ (List.Pairwise.cons hp.1 hp.2)
      intro z hz
      rcases List.mem_cons.mp hz with rfl | hz2
      · exact (sortCompare_le_iff hx hy).mp h
      · exact dateGE_trans ((sortCompare_le_iff hx hy).mp h) (hp.1 z hz2)
    · rw [if_neg h]
      refine List.Pairwise.cons ?_ (ih (fun d hd => hs d (by simp [hd])) hp.2)
      intro z hz
      rcases mem_insertByDate.mp hz with rfl | hz2
      · have hyx : sortCompare y z ≤ 0 := by
          obtain ⟨tx, htx⟩ := Option.isSome_iff_exists.mp hx
          obtain ⟨ty, hty⟩ := Option.isSome_iff_exists.mp hy
          have : ¬ sortCompare z y ≤ 0 := h
          simp [sortCompare, htx, hty] at this ⊢
          omega
        exact (sortCompare_le_iff hy hx).mp hyx
      · exact hp.1 z hz2

theorem mem_sortDraws {z : Json} : ∀ {l : List Json}, z ∈ sortDraws l ↔ z ∈ l := by
  intro l
  induction l with
  | nil => simp [sortDraws]
  | cons x xs ih =>
    show z ∈ insertByDate x (sortDraws xs) ↔ _
    rw [mem_insertByDate, ih, List.mem_cons]

theorem sortDraws_pairwise :
    ∀ l : List Json, (∀ d ∈ l, (dateKey d).isSome = true) →
      (sortDraws l).Pairwise dateGE := by
  intro l
  induction l with
  | nil => intro _; simp [sortDraws]
  | cons x xs ih =>
    intro h
    have hxs : ∀ d ∈ xs, (dateKey d).isSome = true := fun d hd => h d (by simp [hd])
    show (insertByDate x (sortDraws xs)).Pairwise dateGE
    exact insertByDate_pairwise (h x (by simp))
      (fun y hy => hxs y (mem_sortDraws.mp hy)) (ih hxs)

theorem filter_insertByDate (t : Int) (x : Json) (s : List Json) :
    (insertByDate x s).filter (fun d => dateKey d == some t)
      = (x :: s).filter (fun d => dateKey d == some t) := by
  induction s with
  | nil => rfl
  | cons y ys ih =>
    unfold insertByDate
    by_cases h : sortCompare x y ≤ 0
    · rw [if_pos h]
    · rw [if_neg h]
      by_cases hxt : (dateKey x == some t) = true <;>
        by_cases hyt : (dateKey y == some t) = true
      · exfalso
        apply h
        have hx2 : dateKey x = some t := by simpa using hxt
        have hy2 : dateKey y = some t := by simpa using hyt
        simp [sortCompare, hx2, hy2]
      all_goals simp [List.filter_cons, hxt, hyt, ih]

theorem sortDraws_filter (t : Int) :
    ∀ l : List Json,
      (sortDraws l).filter (fun d => dateKey d == some t)
        = l.filter (fun d => dateKey d == some t) := by
  intro l
  induction l with
  | nil => rfl
  | cons x xs ih =>
    show (insertByDate x (sortDraws xs)).filter _ = _
    rw [filter_insertByDate]
    simp [List.filter_cons, ih]

/-- Claim C6: On kept records whose dates all parse, the sort output is
descending by date, ties (same-date records, i.e. any equal-timestamp class)
keep their original relative order, and the three-date example comes out as
2026-02-15, 2026-01-20, 2026-01-01. -/
theorem sortDraws_desc_stable (l : List Json)
    (h : ∀ d ∈ l, (dateKey d).isSome = true) :
    (sortDraws l).Pairwise dateGE ∧
    (∀ t : Int, (sortDraws l).filter (fun d => dateKey d == some t)
        = l.filter (fun d => dateKey d == some t)) ∧
    sortDraws [drawJan01, drawFeb15, drawJan20]
      = [drawFeb15, drawJan20, drawJan01] :=
  ⟨sortDraws_pairwise l h, fun t => sortDraws_filter t l, rfl⟩

theorem sortDraws_desc_stable_witness :
    (sortDraws [drawJan01, drawFeb15, drawJan20]).Pairwise dateGE :=
  (sortDraws_desc_stable [drawJan01, drawFeb15, drawJan20]
    (by
      intro d hd
      simp only [List.mem_cons, List.not_mem_nil, or_false] at hd
      rcases hd with rfl | rfl | rfl <;> rfl)).1

/-! ### Fence stripping (C10) -/

theorem stripNl_decomp (r : List Char) :
    ∃ p, (p = [] ∨ p = ['\n']) ∧ r = p ++ stripNl r := by
  cases r with
  | nil => exact ⟨[], Or.inl rfl, rfl⟩
  | cons c r2 =>
    by_cases h : c = '\n'
    · subst h
      exact ⟨['\n'], Or.inr rfl, by simp [stripNl]⟩
    · exact ⟨[], Or.inl rfl, by simp [stripNl, h]⟩

theorem stripAfterFence_decomp (r : List Char) :
    ∃ p, (p = [] ∨ p = String.toList "json" ∨ p = ['\n'] ∨
          p = String.toList "json" ++ ['\n']) ∧
      r = p ++ stripAfterFence r := by
  have base : ∀ r' : List Char, stripAfterFence r' = stripNl r' →
      ∃ p, (p = [] ∨ p = String.toList "json" ∨ p = ['\n'] ∨
            p = String.toList "json" ++ ['\n']) ∧ r' = p ++ stripAfterFence r' := by
    intro r' he
    obtain ⟨p, hp, hr⟩ := stripNl_decomp r'
    refine ⟨p, ?_, by rw [he]; exact hr⟩
    rcases hp with rfl | rfl
    · exact Or.inl rfl
    · exact Or.inr (Or.inr (Or.inl rfl))
  rcases r with _ | ⟨c1, _ | ⟨c2, _ | ⟨c3, _ | ⟨c4, r4⟩⟩⟩⟩
  · exact base [] rfl
  · exact base [c1] rfl
  · exact base [c1, c2] rfl
  · exact base [c1, c2, c3] rfl
  · by_cases hj : (c1 == 'j' && c2 == 's' && c3 == 'o' && c4 == 'n') = true
    · simp only [Bool.and_eq_true, beq_iff_eq] at hj
      obtain ⟨⟨⟨e1, e2⟩, e3⟩, e4⟩ := hj
      subst e1; subst e2; subst e3; subst e4
      obtain ⟨p, hp, hr⟩ := stripNl_decomp r4
      have hs : stripAfterFence ('j' :: 's' :: 'o' :: 'n' :: r4) = stripNl r4 := by
        simp [stripAfterFence]
      refine ⟨String.toList "json" ++ p, ?_, ?_⟩
      · rcases hp with rfl | rfl
        · exact Or.inr (Or.inl (by simp))
        · exact Or.inr (Or.inr (Or.inr rfl))
      · rw [hs]
        conv_lhs => rw [hr]
        simp
    · have hs : stripAfterFence (c1 :: c2 :: c3 :: c4 :: r4)
          = stripNl (c1 :: c2 :: c3 :: c4 :: r4) := by
        simp only [stripAfterFence, hj, Bool.false_eq_true, if_false]
      exact base _ hs

theorem stripTrailFence_decomp (l : List Char) :
    ∃ q, (q = [] ∨ q = fenceMarker ∨ q = '\n' :: fenceMarker) ∧
      l = stripTrailFence l ++ q := by
  have hl : l = l.reverse.reverse := (List.reverse_reverse l).symm
  rcases hrev : l.reverse with _ | ⟨a, _ | ⟨b, _ | ⟨c, _ | ⟨d, rest⟩⟩⟩⟩
  · refine ⟨[], Or.inl rfl, ?_⟩
    rw [stripTrailFence, hrev]
    simp
  · refine ⟨[], Or.inl rfl, ?_⟩
    rw [stripTrailFence, hrev]
    simp
  · refine ⟨[], Or.inl rfl, ?_⟩
    rw [stripTrailFence, hrev]
    simp
  · by_cases hf : (a == backtick && b == backtick && c == backtick) = true
    · simp only [Bool.and_eq_true, beq_iff_eq] at hf
      obtain ⟨⟨e1, e2⟩, e3⟩ := hf
      subst e1; subst e2; subst e3
      refine ⟨fenceMarker, Or.inr (Or.inl rfl), ?_⟩
      rw [stripTrailFence, hrev]
      simp only [beq_self_eq_true, Bool.and_self, if_true]
      rw [hl, hrev]
      simp [fenceMarker]
    · refine ⟨[], Or.inl rfl, ?_⟩
      rw [stripTrailFence, hrev]
      simp [hf]
  · by_cases hf : (a == backtick && b == backtick && c == backtick) = true
    · simp only [Bool.and_eq_true, beq_iff_eq] at hf
      obtain ⟨⟨e1, e2⟩, e3⟩ := hf
      subst e1; subst e2; subst e3
      by_cases hd : d = '\n'
      · subst hd
        refine ⟨'\n' :: fenceMarker, Or.inr (Or.inr rfl), ?_⟩
        rw [stripTrailFence, hrev]
        simp only [beq_self_eq_true, Bool.and_self, if_true]
        rw [hl, hrev]
        simp [fenceMarker]
      · refine ⟨fenceMarker, Or.inr (Or.inl rfl), ?_⟩
        rw [stripTrailFence, hrev]
        simp only [beq_self_eq_true, Bool.and_self, if_true, hd, if_false]
        rw [hl, hrev]
        simp [fenceMarker, hd]
    · refine ⟨[], Or.inl rfl, ?_⟩
      rw [stripTrailFence, hrev]
      simp [hf]

theorem stripFences_decomp (t : List Char) :
    ∃ p core q,
      stripFences t = core ∧
      t = p ++ core ++ q ∧
      (p = [] ∨ p = fenceMarker ∨ p = fenceMarker ++ String.toList "json" ∨
       p = fenceMarker ++ ['\n'] ∨ p = fenceMarker ++ String.toList "json" ++ ['\n']) ∧
      (q = [] ∨ q = fenceMarker ∨ q = '\n' :: fenceMarker) := by
  by_cases hsw : startsWithFence t = true
  · rcases t with _ | ⟨a, _ | ⟨b, _ | ⟨c, rest⟩⟩⟩
    · simp [startsWithFence] at hsw
    · simp [startsWithFence] at hsw
    · simp [startsWithFence] at hsw
    · have hf := hsw
      simp only [startsWithFence, Bool.and_eq_true, beq_iff_eq] at hf
      obtain ⟨⟨e1, e2⟩, e3⟩ := hf
      subst e1; subst e2; subst e3
      obtain ⟨p2, hp2, hr2⟩ := stripAfterFence_decomp rest
      obtain ⟨q, hq, hl2⟩ := stripTrailFence_decomp (stripAfterFence rest)
      refine ⟨fenceMarker ++ p2, stripTrailFence (stripAfterFence rest), q, ?_, ?_, ?_, hq⟩
      · simp [stripFences, hsw, stripLeadFence]
      · conv_lhs => rw [hr2, hl2]
        simp [fenceMarker]
      · rcases hp2 with rfl | rfl | rfl | rfl
        · exact Or.inr (Or.inl (by simp))
        · exact Or.inr (Or.inr (Or.inl rfl))
        · exact Or.inr (Or.inr (Or.inr (Or.inl rfl)))
        · exact Or.inr (Or.inr (Or.inr (Or.inr rfl)))
  · have h0 : startsWithFence t = false := by simpa using hsw
    exact ⟨[], t, [], by simp [stripFences, h0], by simp, Or.inl rfl, Or.inl rfl⟩

/-- Claim C10: The normalizer removes a closing fence only when the trimmed
input begins with an opening fence (otherwise no fence removal happens at
all), and fence stripping removes at most one leading fence (three backticks
with an optional `json` tag and one optional newline) and at most one
trailing fence (with one optional preceding newline). -/
theorem stripFences_conditional_once (s : List Char) :
    (startsWithFence (jsTrim s) = false → stripFences (jsTrim s) = jsTrim s) ∧
    (∃ p core q,
      stripFences (jsTrim s) = core ∧
      jsTrim s = p ++ core ++ q ∧
      (p = [] ∨ p = fenceMarker ∨ p = fenceMarker ++ String.toList "json" ∨
       p = fenceMarker ++ ['\n'] ∨ p = fenceMarker ++ String.toList "json" ++ ['\n']) ∧
      (q = [] ∨ q = fenceMarker ∨ q = '\n' :: fenceMarker)) :=
  ⟨fun h => by simp [stripFences, h], stripFences_decomp (jsTrim s)⟩

theorem stripFences_conditional_once_witness :
    stripFences (jsTrim (String.toList "[1]```"))
      = jsTrim (String.toList "[1]```") :=
  (stripFences_conditional_once (String.toList "[1]```")).1 (by decide)

/-! ### Empty payload (C9) -/

/-- Claim C9: A completed upstream call with an empty text payload yields an
empty `draws` list and no `errorDetail`: the empty `RawText` is replaced by
the default `\x7b"draws": []\x7d`, which parses, so the repair/validate stage
reports no failure. -/
theorem empty_rawText_empty_draws (srcs : List (List Char × List Char)) :
    generateLotteryData true (Upstream.success (some []) srcs)
      = ⟨[], srcs, none⟩ := rfl

/-! ### Error-detail taxonomy (C4) -/

theorem gen_success_eq (t : Option (List Char)) (ss : List (List Char × List Char))
    (dv : Json) (hp : parseJsonList (cleanJsonString (rawTextOf t)) = some dv)
    (hdn : dv ≠ Json.null) :
    generateLotteryData true (Upstream.success t ss)
      = (match getField dv drawsKey with
         | some (Json.arr ds) => ⟨sortDraws (ds.filter isValidDraw), ss, none⟩
         | _ => ⟨[], ss, none⟩) := by
  cases dv with
  | null => exact absurd rfl hdn
  | bool b => simp [generateLotteryData, hp]
  | num ng m sc e => simp [generateLotteryData, hp]
  | str s2 => simp [generateLotteryData, hp]
  | arr a => simp [generateLotteryData, hp]
  | obj fs => simp [generateLotteryData, hp]

/-- The biconditional of the frozen claim fails at the payload `null`: it is
parseable JSON, yet the pipeline reports the parse-failure `errorDetail`,
because `data.draws` on `null` throws inside the guarded block. -/
theorem errorDetail_null_payload_cex :
    parseJsonList (cleanJsonString (rawTextOf (some (String.toList "null"))))
      = some Json.null ∧
    generateLotteryData true (Upstream.success (some (String.toList "null")) [])
      = ⟨[], [], some parseFailMsg⟩ := ⟨rfl, rfl⟩

/-- Claim C4, amended: With the API key present, `errorDetail` is set exactly
when the upstream call failed, or the payload could not be repaired into
parseable JSON, or it parsed to JSON `null` (whose field access faults);
when `errorDetail` is set the `draws` list is empty, and a successful parse
to any non-`null` value — even one yielding zero valid records — leaves
`errorDetail` unset, so success-with-no-records stays distinguishable from
failure. -/
theorem errorDetail_exactly_on_failure (u : Upstream) :
    ((generateLotteryData true u).errorDetail ≠ none ↔
      (∃ m, u = Upstream.failure m) ∨
      (∃ t ss, u = Upstream.success t ss ∧
        (parseJsonList (cleanJsonString (rawTextOf t)) = none ∨
         parseJsonList (cleanJsonString (rawTextOf t)) = some Json.null))) ∧
    ((generateLotteryData true u).errorDetail ≠ none →
      (generateLotteryData true u).draws = []) ∧
    (∀ t2 ss2 d, u = Upstream.success t2 ss2 →
      parseJsonList (cleanJsonString (rawTextOf t2)) = some d → d ≠ Json.null →
      (generateLotteryData true u).errorDetail = none) := by
  cases u with
  | failure m =>
    refine ⟨⟨fun _ => Or.inl ⟨m, rfl⟩, fun _ => by simp [generateLotteryData]⟩,
      fun _ => by simp [generateLotteryData], ?_⟩
    intro t2 ss2 d heq
    exact absurd heq (by simp)
  | success t ss =>
    cases hp : parseJsonList (cleanJsonString (rawTextOf t)) with
    | none =>
      refine ⟨⟨fun _ => Or.inr ⟨t, ss, rfl, Or.inl hp⟩,
        fun _ => by simp [generateLotteryData, hp]⟩,
        fun _ => by simp [generateLotteryData, hp], ?_⟩
      intro t2 ss2 d heq hpd hdn2
      injection heq with h1 h2
      subst h1
      rw [hp] at hpd
      cases hpd
    | some dv =>
      by_cases hdn : dv = Json.null
      · subst hdn
        refine ⟨⟨fun _ => Or.inr ⟨t, ss, rfl, Or.inr hp⟩,
          fun _ => by simp [generateLotteryData, hp]⟩,
          fun _ => by simp [generateLotteryData, hp], ?_⟩
        intro t2 ss2 d heq hpd hdn2
        injection heq with h1 h2
        subst h1
        rw [hp] at hpd
        exact absurd (Option.some.inj hpd).symm hdn2
      · have hnone : (generateLotteryData true (Upstream.success t ss)).errorDetail
            = none := by
          rw [gen_success_eq t ss dv hp hdn]
          split <;> rfl
        refine ⟨⟨fun hne => absurd hnone hne, ?_⟩, fun hne => absurd hnone hne,
          fun _ _ _ _ _ _ => hnone⟩
        intro hor
        exfalso
        rcases hor with ⟨m, hm⟩ | ⟨t2, ss2, heq, hor2⟩
        · exact Upstream.noConfusion hm
        · injection heq with h1 h2
          subst h1
          rcases hor2 with h3 | h3 <;> rw [hp] at h3
          · cases h3
          · exact hdn (Option.some.inj h3.symm).symm

theorem errorDetail_exactly_on_failure_witness :
    (generateLotteryData true (Upstream.failure (String.toList "x"))).errorDetail
      ≠ none :=
  (errorDetail_exactly_on_failure (Upstream.failure (String.toList "x"))).1.mpr
    (Or.inl ⟨String.toList "x", rfl⟩)

theorem fixTruncatedJson_id_witness :
    specWellDelimited (String.toList "\x7b\"a\":[1,2]\x7d") = true ∧
    fixTruncatedJson (String.toList "\x7b\"a\":[1,2]\x7d")
      = String.toList "\x7b\"a\":[1,2]\x7d" :=
  ⟨by decide,
   (fixTruncatedJson_id_of_wellDelimited (String.toList "\x7b\"a\":[1,2]\x7d")
      (by decide)).1⟩
